import Mathlib

/-!
Verification of the half-hour alignment and cheapness-scoring pipeline of
`src/app.py` (UKPowerPricePredictor).

Embedding choices:
* Timestamps are modelled as integers counting seconds since the Unix epoch.
  All timestamps in the program are timezone-aware UTC instants
  (`pd.to_datetime(..., utc=True)`), so `tz_convert("UTC")` is the identity
  on the underlying instant and an instant is fully described by one integer.
  Lean integer `/` and `%` are euclidean division, which for the positive
  divisors used here agrees with the floor semantics of pandas `dt.floor`.
* Prices are modelled as rationals: the pipeline is a composition of field
  operations and comparisons, stated here over exact arithmetic.
* A pandas DataFrame is modelled as a list of rows in frame order; the
  vectorised column operations of `compute_cheapness` become list maps.
-/

namespace PowerPrice

/-- Hour component removed: `ts.dt.floor("H")` of `src/app.py` line 101,
as seconds since the epoch. -/
def tsFloorHour (t : Int) : Int := 3600 * (t / 3600)

/-- Minute component of a timestamp, `ts.dt.minute` (line 100). -/
def tsMinute (t : Int) : Int := t % 3600 / 60

/-- Model of `floor_to_half_hour` (src/app.py lines 95-101): floor to the hour, then
add back `(minute // 30) * 30` minutes. -/
def floor_to_half_hour (t : Int) : Int :=
  tsFloorHour t + 60 * (tsMinute t / 30 * 30)

/-- A row of the Agile price frame returned by `get_agile_prices`
(columns `start`, `end`, `agile_p_per_kwh`). -/
structure AgileRow where
  start : Int
  endTime : Int
  agile_p_per_kwh : ℚ
deriving DecidableEq, Repr

/-- A row of the system-price frame returned by
`get_system_prices_today_and_tomorrow` (columns `start`, `system_p_per_kwh`). -/
structure SystemRow where
  start : Int
  system_p_per_kwh : ℚ
deriving DecidableEq, Repr

/-- A row of the frame returned by `compute_cheapness` (line 156). -/
structure ScoredRow where
  start : Int
  endTime : Int
  agile_p_per_kwh : ℚ
  system_p_per_kwh : ℚ
  cheapness_score : ℚ
deriving DecidableEq, Repr

/-- Insert a key into a strictly sorted list of keys, skipping duplicates. -/
def insertKey (k : Int) : List Int → List Int
  | [] => [k]
  | x :: xs =>
    if k < x then k :: x :: xs
    else if k = x then x :: xs
    else x :: insertKey k xs

/-- The sorted list of distinct keys of a list, mirroring the sorted unique
group keys produced by `groupby` (pandas sorts group keys ascending). -/
def sortedKeys (ks : List Int) : List Int :=
  ks.foldl (fun acc k => insertKey k acc) []

/-- Arithmetic mean of a list, the `"mean"` aggregation of lines 123-128. -/
def listMean (l : List ℚ) : ℚ := l.sum / l.length

/-- Minimum of a series, `Series.min` (lines 138, 145). -/
def seriesMin : List ℚ → ℚ
  | [] => 0
  | x :: r => r.foldl min x

/-- Maximum of a series, `Series.max` (lines 138, 145). -/
def seriesMax : List ℚ → ℚ
  | [] => 0
  | x :: r => r.foldl max x

/-- Maximum of a list of timestamps, the `"max"` aggregation of the `end`
column (line 124). -/
def endMax : List Int → Int
  | [] => 0
  | x :: r => r.foldl max x

/-- The half-hour slots of the Agile frame (line 119), as sorted group keys. -/
def agileSlots (rows : List AgileRow) : List Int :=
  sortedKeys (rows.map fun r => floor_to_half_hour r.start)

/-- The half-hour slots of the system frame (line 120), as sorted group keys. -/
def systemSlots (rows : List SystemRow) : List Int :=
  sortedKeys (rows.map fun r => floor_to_half_hour r.start)

/-- Model of the Agile groupby-aggregation of lines 123-125 (slot groups with
mean price and max end): one row per distinct slot, in ascending slot order, carrying
the mean price and the max end of the records in that slot. -/
def groupAgile (rows : List AgileRow) : List (Int × ℚ × Int) :=
  (agileSlots rows).map fun k =>
    (k,
     listMean (((rows.filter fun r => floor_to_half_hour r.start == k)).map
       fun r => r.agile_p_per_kwh),
     endMax (((rows.filter fun r => floor_to_half_hour r.start == k)).map
       fun r => r.endTime))

/-- Model of the system-price groupby-aggregation of lines 126-128 (slot
groups with mean price). -/
def groupSystem (rows : List SystemRow) : List (Int × ℚ) :=
  (systemSlots rows).map fun k =>
    (k,
     listMean (((rows.filter fun r => floor_to_half_hour r.start == k)).map
       fun r => r.system_p_per_kwh))

/-- Model of the inner merge on the slot column (line 131): keep the order
of the left keys, pairing each left slot with the system value at the same
slot when one exists.  The aggregated `end` column is carried along by the
merge in the program but is overwritten at line 154 before being read, so it
is dropped here at the merge. -/
def mergeInner (ga : List (Int × ℚ × Int)) (gs : List (Int × ℚ)) :
    List (Int × ℚ × ℚ) :=
  ga.filterMap fun m => (gs.lookup m.1).map fun vs => (m.1, m.2.1, vs)

/-- The joined frame of `compute_cheapness` after line 131. -/
def mergedDf (agile_df : List AgileRow) (system_df : List SystemRow) :
    List (Int × ℚ × ℚ) :=
  mergeInner (groupAgile agile_df) (groupSystem system_df)

/-- Min-max normalisation of one value against the column bounds
(lines 139-142 and 146-149): `(x - min) / (max - min)` when `max > min`,
else the constant `0.5`. -/
def normalizeVal (mn mx x : ℚ) : ℚ :=
  if mn < mx then (x - mn) / (mx - mn) else 1/2

/-- Column-level min-max normalisation: the `agile_norm` / `system_norm`
columns (lines 137-149) are this map applied to the joined column. -/
def normalizeSeries (xs : List ℚ) : List ℚ :=
  xs.map (normalizeVal (seriesMin xs) (seriesMax xs))

/-- The scoring formula of line 151:
`100 * (1 - 0.5 * agile_norm - 0.5 * system_norm)`. -/
def cheapness_score (a_norm s_norm : ℚ) : ℚ :=
  100 * (1 - 1/2 * a_norm - 1/2 * s_norm)

/-- Model of `compute_cheapness` (src/app.py lines 104-156).  Returns the empty frame
when either input frame is empty (lines 112-113) or when the inner join is
empty (lines 132-133); otherwise normalises both joined price columns against
their own min/max over the joined window, scores each row, and sets
`end = start + 30min` (line 154). -/
def compute_cheapness (agile_df : List AgileRow) (system_df : List SystemRow) :
    List ScoredRow :=
  if agile_df.isEmpty || system_df.isEmpty then []
  else if (mergedDf agile_df system_df).isEmpty then []
  else
    (mergedDf agile_df system_df).map fun m =>
      { start := m.1
        endTime := m.1 + 1800
        agile_p_per_kwh := m.2.1
        system_p_per_kwh := m.2.2
        cheapness_score := cheapness_score
          (normalizeVal (seriesMin ((mergedDf agile_df system_df).map fun x => x.2.1))
                        (seriesMax ((mergedDf agile_df system_df).map fun x => x.2.1))
                        m.2.1)
          (normalizeVal (seriesMin ((mergedDf agile_df system_df).map fun x => x.2.2))
                        (seriesMax ((mergedDf agile_df system_df).map fun x => x.2.2))
                        m.2.2) }

/-! ### Helper lemmas -/

/-- Basic slot-boundary facts about `floor_to_half_hour`, by integer
arithmetic on the euclidean quotients and remainders. -/
lemma floor_to_half_hour_props (t : Int) :
    (tsMinute (floor_to_half_hour t) = 0 ∨ tsMinute (floor_to_half_hour t) = 30) ∧
    floor_to_half_hour t % 60 = 0 ∧
    floor_to_half_hour t ≤ t ∧ t < floor_to_half_hour t + 1800 := by
  unfold floor_to_half_hour tsFloorHour tsMinute
  omega

lemma mem_insertKey {a k : Int} {l : List Int} :
    a ∈ insertKey k l ↔ a = k ∨ a ∈ l := by
  induction l with
  | nil => simp [insertKey]
  | cons x xs ih =>
    by_cases h1 : k < x
    · simp [insertKey, h1, List.mem_cons]
    · by_cases h2 : k = x
      · subst h2
        simp [insertKey, h1, List.mem_cons]
      · simp only [insertKey, if_neg h1, if_neg h2, List.mem_cons, ih]
        tauto

lemma pairwise_insertKey {k : Int} {l : List Int}
    (h : l.Pairwise (· < ·)) : (insertKey k l).Pairwise (· < ·) := by
  induction l with
  | nil => simp [insertKey]
  | cons x xs ih =>
    rw [List.pairwise_cons] at h
    by_cases h1 : k < x
    · simp only [insertKey, if_pos h1]
      refine List.pairwise_cons.mpr ⟨?_, List.pairwise_cons.mpr h⟩
      intro y hy
      rcases List.mem_cons.mp hy with rfl | hy2
      · exact h1
      · exact lt_trans h1 (h.1 y hy2)
    · by_cases h2 : k = x
      · subst h2
        simp only [insertKey, if_neg h1, if_pos rfl]
        exact List.pairwise_cons.mpr h
      · simp only [insertKey, if_neg h1, if_neg h2]
        refine List.pairwise_cons.mpr ⟨?_, ih h.2⟩
        intro y hy
        rcases mem_insertKey.mp hy with rfl | hy2
        · omega
        · exact h.1 y hy2

lemma mem_foldl_insertKey (ks : List Int) :
    ∀ (acc : List Int) (a : Int),
      (a ∈ ks.foldl (fun acc k => insertKey k acc) acc ↔ a ∈ acc ∨ a ∈ ks) := by
  induction ks with
  | nil => simp
  | cons k ks ih =>
    intro acc a
    rw [List.foldl_cons, ih, mem_insertKey, List.mem_cons]
    tauto

lemma pairwise_foldl_insertKey (ks : List Int) :
    ∀ (acc : List Int), acc.Pairwise (· < ·) →
      (ks.foldl (fun acc k => insertKey k acc) acc).Pairwise (· < ·) := by
  induction ks with
  | nil => intro acc h; simpa using h
  | cons k ks ih =>
    intro acc h
    rw [List.foldl_cons]
    exact ih _ (pairwise_insertKey h)

lemma mem_sortedKeys {a : Int} {ks : List Int} :
    a ∈ sortedKeys ks ↔ a ∈ ks := by
  unfold sortedKeys
  rw [mem_foldl_insertKey]
  simp

lemma pairwise_sortedKeys (ks : List Int) :
    (sortedKeys ks).Pairwise (· < ·) :=
  pairwise_foldl_insertKey ks [] (by simp)

/-- Looking up a key in an association list of the shape
`keys.map fun k => (k, f k)`. -/
lemma lookup_keyfun {β : Type} (keys : List Int) (f : Int → β) (a : Int) :
    (keys.map fun k => (k, f k)).lookup a =
      if a ∈ keys then some (f a) else none := by
  induction keys with
  | nil => simp [List.lookup]
  | cons k ks ih =>
    simp only [List.map_cons, List.lookup]
    by_cases h : a = k
    · subst h
      simp
    · have hb : (a == k) = false := by simpa using h
      rw [hb]
      simpa [List.mem_cons, h] using ih

lemma groupAgile_map_fst (rows : List AgileRow) :
    (groupAgile rows).map (fun m => m.1) = agileSlots rows := by
  unfold groupAgile
  rw [List.map_map]
  exact List.map_id _

lemma groupSystem_map_fst (rows : List SystemRow) :
    (groupSystem rows).map (fun m => m.1) = systemSlots rows := by
  unfold groupSystem
  rw [List.map_map]
  exact List.map_id _

lemma groupSystem_lookup (rows : List SystemRow) (a : Int) :
    (groupSystem rows).lookup a =
      if a ∈ systemSlots rows then
        some (listMean ((rows.filter fun r =>
          floor_to_half_hour r.start == a).map fun r => r.system_p_per_kwh))
      else none := by
  unfold groupSystem
  exact lookup_keyfun (systemSlots rows) _ a

lemma groupAgile_lookup (rows : List AgileRow) (a : Int) :
    (groupAgile rows).lookup a =
      if a ∈ agileSlots rows then
        some (listMean ((rows.filter fun r =>
                 floor_to_half_hour r.start == a).map fun r => r.agile_p_per_kwh),
              endMax ((rows.filter fun r =>
                 floor_to_half_hour r.start == a).map fun r => r.endTime))
      else none := by
  unfold groupAgile
  exact lookup_keyfun (agileSlots rows) _ a

lemma mergeInner_nil_right (ga : List (Int × ℚ × Int)) :
    mergeInner ga [] = [] := by
  unfold mergeInner
  induction ga with
  | nil => rfl
  | cons g ga ih =>
    simp only [List.lookup, List.filterMap_cons, Option.map_none']
    exact ih

lemma mergeInner_map_fst_sublist (ga : List (Int × ℚ × Int))
    (gs : List (Int × ℚ)) :
    ((mergeInner ga gs).map fun m => m.1).Sublist (ga.map fun m => m.1) := by
  induction ga with
  | nil => simp [mergeInner]
  | cons g ga ih =>
    simp only [mergeInner, List.filterMap_cons] at ih ⊢
    cases h : (gs.lookup g.1) with
    | none =>
      simp only [Option.map_none', List.map_cons]
      exact (ih).cons _
    | some v =>
      simp only [Option.map_some', List.map_cons]
      exact (ih).cons₂ _

lemma mem_mergeInner_fst {k : Int} (ga : List (Int × ℚ × Int))
    (gs : List (Int × ℚ)) :
    k ∈ (mergeInner ga gs).map (fun m => m.1) ↔
      k ∈ ga.map (fun m => m.1) ∧ (gs.lookup k).isSome := by
  induction ga with
  | nil => simp [mergeInner]
  | cons g ga ih =>
    simp only [mergeInner, List.filterMap_cons] at ih ⊢
    cases h : (gs.lookup g.1) with
    | none =>
      simp only [Option.map_none', List.map_cons, List.mem_cons]
      rw [ih]
      constructor
      · rintro ⟨hmem, hsome⟩
        exact ⟨Or.inr hmem, hsome⟩
      · rintro ⟨(rfl | hmem), hsome⟩
        · rw [h] at hsome
          simp at hsome
        · exact ⟨hmem, hsome⟩
    | some v =>
      simp only [Option.map_some', List.map_cons, List.mem_cons]
      rw [ih]
      constructor
      · rintro (rfl | ⟨hmem, hsome⟩)
        · refine ⟨Or.inl rfl, ?_⟩
          rw [h]
          rfl
        · exact ⟨Or.inr hmem, hsome⟩
      · rintro ⟨(rfl | hmem), hsome⟩
        · exact Or.inl rfl
        · exact Or.inr ⟨hmem, hsome⟩

lemma mergedDf_nil_of_empty {agile_df : List AgileRow}
    {system_df : List SystemRow}
    (h : agile_df.isEmpty || system_df.isEmpty) :
    mergedDf agile_df system_df = [] := by
  rcases Bool.or_eq_true_iff.mp h with h1 | h1
  · rw [List.isEmpty_iff] at h1
    subst h1
    rfl
  · rw [List.isEmpty_iff] at h1
    subst h1
    exact mergeInner_nil_right _

/-- Unconditionally, `compute_cheapness` is the row-map over the joined frame:
when either emptiness branch fires the joined frame is itself empty. -/
lemma compute_cheapness_eq (agile_df : List AgileRow)
    (system_df : List SystemRow) :
    compute_cheapness agile_df system_df =
      (mergedDf agile_df system_df).map fun m =>
        { start := m.1
          endTime := m.1 + 1800
          agile_p_per_kwh := m.2.1
          system_p_per_kwh := m.2.2
          cheapness_score := cheapness_score
            (normalizeVal (seriesMin ((mergedDf agile_df system_df).map fun x => x.2.1))
                          (seriesMax ((mergedDf agile_df system_df).map fun x => x.2.1))
                          m.2.1)
            (normalizeVal (seriesMin ((mergedDf agile_df system_df).map fun x => x.2.2))
                          (seriesMax ((mergedDf agile_df system_df).map fun x => x.2.2))
                          m.2.2) } := by
  unfold compute_cheapness
  by_cases h : agile_df.isEmpty || system_df.isEmpty
  · rw [if_pos h, mergedDf_nil_of_empty h]
    rfl
  · rw [if_neg h]
    by_cases h2 : (mergedDf agile_df system_df).isEmpty
    · rw [if_pos h2]
      rw [List.isEmpty_iff] at h2
      rw [h2]
      rfl
    · rw [if_neg h2]

lemma foldl_min_all_eq {c : ℚ} :
    ∀ l : List ℚ, (∀ y ∈ l, y = c) → l.foldl min c = c := by
  intro l
  induction l with
  | nil => intro _; rfl
  | cons y l ih =>
    intro h
    have hy : y = c := h y (by simp)
    subst hy
    simp only [List.foldl_cons, min_self]
    exact ih fun z hz => h z (by simp [hz])

lemma foldl_max_all_eq {c : ℚ} :
    ∀ l : List ℚ, (∀ y ∈ l, y = c) → l.foldl max c = c := by
  intro l
  induction l with
  | nil => intro _; rfl
  | cons y l ih =>
    intro h
    have hy : y = c := h y (by simp)
    subst hy
    simp only [List.foldl_cons, max_self]
    exact ih fun z hz => h z (by simp [hz])

lemma foldl_min_affine {a b : ℚ} (ha : 0 < a) :
    ∀ (l : List ℚ) (x : ℚ),
      (l.map fun v => a * v + b).foldl min (a * x + b) = a * l.foldl min x + b := by
  intro l
  induction l with
  | nil => intro _; rfl
  | cons y l ih =>
    intro x
    simp only [List.map_cons, List.foldl_cons]
    have hmin : min (a * x + b) (a * y + b) = a * min x y + b := by
      rcases le_total x y with hxy | hxy
      · have := mul_le_mul_of_nonneg_left hxy ha.le
        rw [min_eq_left (by linarith), min_eq_left hxy]
      · have := mul_le_mul_of_nonneg_left hxy ha.le
        rw [min_eq_right (by linarith), min_eq_right hxy]
    rw [hmin]
    exact ih (min x y)

lemma foldl_max_affine {a b : ℚ} (ha : 0 < a) :
    ∀ (l : List ℚ) (x : ℚ),
      (l.map fun v => a * v + b).foldl max (a * x + b) = a * l.foldl max x + b := by
  intro l
  induction l with
  | nil => intro _; rfl
  | cons y l ih =>
    intro x
    simp only [List.map_cons, List.foldl_cons]
    have hmax : max (a * x + b) (a * y + b) = a * max x y + b := by
      rcases le_total x y with hxy | hxy
      · have := mul_le_mul_of_nonneg_left hxy ha.le
        rw [max_eq_right (by linarith), max_eq_right hxy]
      · have := mul_le_mul_of_nonneg_left hxy ha.le
        rw [max_eq_left (by linarith), max_eq_left hxy]
    rw [hmax]
    exact ih (max x y)

lemma seriesMin_affine {a b : ℚ} (ha : 0 < a) (x : ℚ) (r : List ℚ) :
    seriesMin ((x :: r).map fun v => a * v + b) = a * seriesMin (x :: r) + b := by
  simp only [List.map_cons, seriesMin]
  exact foldl_min_affine ha r x

lemma seriesMax_affine {a b : ℚ} (ha : 0 < a) (x : ℚ) (r : List ℚ) :
    seriesMax ((x :: r).map fun v => a * v + b) = a * seriesMax (x :: r) + b := by
  simp only [List.map_cons, seriesMax]
  exact foldl_max_affine ha r x

/-! ### Claim theorems -/

/-- C1: every aligned row's `cheapness_score` is
`100 * (1 - 0.5 * agile_norm - 0.5 * system_norm)` applied to the two
normalised components of that row; and for normalised components in `[0,1]`
the score lies in `[0,100]`, equals `100` iff both components are `0`, and
equals `0` iff both are `1`. -/
theorem cheapness_score_formula_and_bounds (n₁ n₂ : ℚ)
    (h1 : 0 ≤ n₁) (h2 : n₁ ≤ 1) (h3 : 0 ≤ n₂) (h4 : n₂ ≤ 1) :
    (∀ (agile_df : List AgileRow) (system_df : List SystemRow),
      ∀ r ∈ compute_cheapness agile_df system_df,
        r.cheapness_score = cheapness_score
          (normalizeVal (seriesMin ((mergedDf agile_df system_df).map fun x => x.2.1))
                        (seriesMax ((mergedDf agile_df system_df).map fun x => x.2.1))
                        r.agile_p_per_kwh)
          (normalizeVal (seriesMin ((mergedDf agile_df system_df).map fun x => x.2.2))
                        (seriesMax ((mergedDf agile_df system_df).map fun x => x.2.2))
                        r.system_p_per_kwh)) ∧
    0 ≤ cheapness_score n₁ n₂ ∧ cheapness_score n₁ n₂ ≤ 100 ∧
    (cheapness_score n₁ n₂ = 100 ↔ n₁ = 0 ∧ n₂ = 0) ∧
    (cheapness_score n₁ n₂ = 0 ↔ n₁ = 1 ∧ n₂ = 1) := by
  refine ⟨?_, ?_, ?_, ?_, ?_⟩
  · intro agile_df system_df r hr
    rw [compute_cheapness_eq] at hr
    obtain ⟨m, hm, rfl⟩ := List.mem_map.mp hr
    rfl
  · unfold cheapness_score
    linarith
  · unfold cheapness_score
    linarith
  · unfold cheapness_score
    constructor
    · intro h
      constructor <;> linarith
    · rintro ⟨rfl, rfl⟩
      norm_num
  · unfold cheapness_score
    constructor
    · intro h
      constructor <;> linarith
    · rintro ⟨rfl, rfl⟩
      norm_num

/-- Witness for C1 at the concrete normalised components `0` and `1/2`. -/
theorem cheapness_score_formula_and_bounds_witness :
    0 ≤ cheapness_score 0 (1/2) ∧ cheapness_score 0 (1/2) ≤ 100 ∧
    (cheapness_score 0 (1/2) = 100 ↔ (0:ℚ) = 0 ∧ (1/2:ℚ) = 0) ∧
    (cheapness_score 0 (1/2) = 0 ↔ (0:ℚ) = 1 ∧ (1/2:ℚ) = 1) :=
  (cheapness_score_formula_and_bounds 0 (1/2) (by norm_num) (by norm_num)
    (by norm_num) (by norm_num)).2

/-- C3: `floor_to_half_hour` maps every instant to an instant whose minute
component is `0` or `30`, with `floor_to_half_hour t ≤ t < floor_to_half_hour
t + 30min`; being a total function of the (UTC) instant, it is defined for
every valid instant. -/
theorem floor_to_half_hour_slot (t : Int) :
    (tsMinute (floor_to_half_hour t) = 0 ∨ tsMinute (floor_to_half_hour t) = 30) ∧
    floor_to_half_hour t ≤ t ∧ t < floor_to_half_hour t + 30 * 60 := by
  unfold floor_to_half_hour tsFloorHour tsMinute
  omega

/-- C4: a degenerate series (every value identical, including the single-row
case, i.e. `max = min`) normalises to the constant `0.5`. -/
theorem normalize_degenerate (xs : List ℚ) (c : ℚ) (h : ∀ x ∈ xs, x = c) :
    normalizeSeries xs = xs.map fun _ => (1:ℚ)/2 := by
  cases xs with
  | nil => rfl
  | cons x r =>
    have hx : x = c := h x (by simp)
    have hmn : seriesMin (x :: r) = c := by
      simp only [seriesMin]
      rw [hx]
      exact foldl_min_all_eq r fun y hy => h y (by simp [hy])
    have hmx : seriesMax (x :: r) = c := by
      simp only [seriesMax]
      rw [hx]
      exact foldl_max_all_eq r fun y hy => h y (by simp [hy])
    have hval : normalizeVal c c = fun _ => (1:ℚ)/2 := by
      funext v
      simp [normalizeVal]
    simp only [normalizeSeries, hmn, hmx, hval]

/-- Witness for C4: `normalize([5,5,5]) = [0.5, 0.5, 0.5]`. -/
theorem normalize_degenerate_witness :
    normalizeSeries [5, 5, 5] = [1/2, 1/2, 1/2] := by
  have h := normalize_degenerate [5, 5, 5] 5 (by
    intro x hx
    simp only [List.mem_cons, List.not_mem_nil, or_false] at hx
    rcases hx with rfl | rfl | rfl <;> rfl)
  simpa using h

/-- C5: a non-degenerate series (`max > min`) normalises elementwise to
`(x - min) / (max - min)`, with min and max taken over the whole series;
any entry equal to the minimum maps to exactly `0` and any entry equal to
the maximum maps to exactly `1`. -/
theorem normalize_nondegenerate (xs : List ℚ)
    (h : seriesMin xs < seriesMax xs) :
    normalizeSeries xs =
      xs.map (fun x => (x - seriesMin xs) / (seriesMax xs - seriesMin xs)) ∧
    (∀ x ∈ xs, x = seriesMin xs →
      normalizeVal (seriesMin xs) (seriesMax xs) x = 0) ∧
    (∀ x ∈ xs, x = seriesMax xs →
      normalizeVal (seriesMin xs) (seriesMax xs) x = 1) := by
  refine ⟨?_, ?_, ?_⟩
  · simp [normalizeSeries, normalizeVal, h]
  · intro x _ hmin
    rw [hmin]
    simp [normalizeVal, h]
  · intro x _ hmax
    rw [hmax]
    simp only [normalizeVal, if_pos h]
    rw [div_self (sub_ne_zero.mpr (ne_of_gt h))]

/-- Witness for C5: `normalize([10,20,30]) = [0.0, 0.5, 1.0]`. -/
theorem normalize_nondegenerate_witness :
    seriesMin [(10:ℚ), 20, 30] < seriesMax [(10:ℚ), 20, 30] ∧
    normalizeSeries [(10:ℚ), 20, 30] = [0, 1/2, 1] := by
  have hlt : seriesMin [(10:ℚ), 20, 30] < seriesMax [(10:ℚ), 20, 30] := by
    norm_num [seriesMin, seriesMax]
  refine ⟨hlt, ?_⟩
  rw [(normalize_nondegenerate [10, 20, 30] hlt).1]
  norm_num [seriesMin, seriesMax]

/-- C2: if either input frame is empty, or no half-hour slot is shared by
the two bucketed series, `compute_cheapness` returns the empty frame (and,
being a total function, raises no error). -/
theorem compute_cheapness_empty_cases (agile_df : List AgileRow)
    (system_df : List SystemRow)
    (h : agile_df = [] ∨ system_df = [] ∨
      ∀ ra ∈ agile_df, ∀ rs ∈ system_df,
        floor_to_half_hour ra.start ≠ floor_to_half_hour rs.start) :
    compute_cheapness agile_df system_df = [] := by
  rw [compute_cheapness_eq]
  suffices hnil : mergedDf agile_df system_df = [] by
    rw [hnil]
    rfl
  rcases h with rfl | rfl | h
  · rfl
  · exact mergeInner_nil_right _
  · by_contra hne
    obtain ⟨m, hm⟩ := List.exists_mem_of_ne_nil _ hne
    have hk : m.1 ∈ (mergedDf agile_df system_df).map (fun m => m.1) :=
      List.mem_map_of_mem _ hm
    unfold mergedDf at hk
    rw [mem_mergeInner_fst] at hk
    obtain ⟨hka, hks⟩ := hk
    rw [groupAgile_map_fst] at hka
    unfold agileSlots at hka
    rw [mem_sortedKeys] at hka
    obtain ⟨ra, hra, hfa⟩ := List.mem_map.mp hka
    rw [groupSystem_lookup] at hks
    by_cases hmem : m.1 ∈ systemSlots system_df
    · unfold systemSlots at hmem
      rw [mem_sortedKeys] at hmem
      obtain ⟨rs, hrs, hfs⟩ := List.mem_map.mp hmem
      exact h ra hra rs hrs (hfa.trans hfs.symm)
    · rw [if_neg hmem] at hks
      simp at hks

/-- Witness for C2: one Agile record in the first half hour and one system
record two hours later share no slot, so the output frame is empty. -/
theorem compute_cheapness_empty_cases_witness :
    compute_cheapness [⟨0, 1800, 10⟩] [⟨7200, 5⟩] = [] :=
  compute_cheapness_empty_cases [⟨0, 1800, 10⟩] [⟨7200, 5⟩] (by
    right
    right
    intro ra hra rs hrs
    simp only [List.mem_cons, List.not_mem_nil, or_false] at hra hrs
    subst hra
    subst hrs
    decide)

/-- C6: before joining, each series is grouped by its floored half-hour
slot, aggregating duplicates by arithmetic mean (sum divided by count);
two Agile records with values 10 and 20 in the same slot yield one aligned
row with value 15 for that slot. -/
theorem groupby_slot_mean (rows : List AgileRow) (k : Int)
    (h : k ∈ agileSlots rows) :
    (groupAgile rows).lookup k =
      some (((rows.filter fun r => floor_to_half_hour r.start == k).map
               fun r => r.agile_p_per_kwh).sum /
            ((rows.filter fun r => floor_to_half_hour r.start == k).map
               fun r => r.agile_p_per_kwh).length,
            endMax ((rows.filter fun r => floor_to_half_hour r.start == k).map
               fun r => r.endTime)) ∧
    compute_cheapness [⟨0, 1800, 10⟩, ⟨600, 1800, 20⟩] [⟨0, 2⟩]
      = [⟨0, 1800, 15, 2, 50⟩] := by
  constructor
  · rw [groupAgile_lookup, if_pos h]
    rfl
  · norm_num [compute_cheapness, mergedDf, mergeInner, groupAgile, groupSystem,
      agileSlots, systemSlots, sortedKeys, insertKey, floor_to_half_hour,
      tsFloorHour, tsMinute, listMean, seriesMin, seriesMax, endMax,
      normalizeVal, cheapness_score, List.lookup, List.filter,
      List.filterMap_cons, List.filterMap_nil, Option.map, ScoredRow.mk.injEq]

/-- Witness for C6 at the two-record example: the slot 0 group aggregates to
the mean 15 (and max end 1800). -/
theorem groupby_slot_mean_witness :
    (groupAgile [⟨0, 1800, 10⟩, ⟨600, 1800, 20⟩]).lookup 0
      = some (15, 1800) ∧
    compute_cheapness [⟨0, 1800, 10⟩, ⟨600, 1800, 20⟩] [⟨0, 2⟩]
      = [⟨0, 1800, 15, 2, 50⟩] := by
  have h := groupby_slot_mean [⟨0, 1800, 10⟩, ⟨600, 1800, 20⟩] 0 (by
    unfold agileSlots
    rw [mem_sortedKeys]
    refine List.mem_map.mpr ⟨⟨0, 1800, 10⟩, by simp, by decide⟩)
  refine ⟨?_, h.2⟩
  rw [h.1]
  norm_num [floor_to_half_hour, tsFloorHour, tsMinute, endMax, List.filter]

/-- C7: the join is an inner join on exact slot equality: a slot start
appears in the output of `compute_cheapness` iff some Agile record and some
system record both floor to that slot. -/
theorem inner_join_slots (agile_df : List AgileRow)
    (system_df : List SystemRow) (k : Int) :
    (∃ r ∈ compute_cheapness agile_df system_df, r.start = k) ↔
      (∃ ra ∈ agile_df, floor_to_half_hour ra.start = k) ∧
      (∃ rs ∈ system_df, floor_to_half_hour rs.start = k) := by
  constructor
  · rintro ⟨r, hr, rfl⟩
    rw [compute_cheapness_eq] at hr
    obtain ⟨m, hm, rfl⟩ := List.mem_map.mp hr
    have hk : m.1 ∈ (mergedDf agile_df system_df).map (fun m => m.1) :=
      List.mem_map_of_mem _ hm
    unfold mergedDf at hk
    rw [mem_mergeInner_fst] at hk
    obtain ⟨hka, hks⟩ := hk
    constructor
    · rw [groupAgile_map_fst] at hka
      unfold agileSlots at hka
      rw [mem_sortedKeys] at hka
      obtain ⟨ra, hra, hfa⟩ := List.mem_map.mp hka
      exact ⟨ra, hra, hfa⟩
    · rw [groupSystem_lookup] at hks
      by_cases hmem : m.1 ∈ systemSlots system_df
      · unfold systemSlots at hmem
        rw [mem_sortedKeys] at hmem
        obtain ⟨rs, hrs, hfs⟩ := List.mem_map.mp hmem
        exact ⟨rs, hrs, hfs⟩
      · rw [if_neg hmem] at hks
        simp at hks
  · rintro ⟨⟨ra, hra, hfa⟩, ⟨rs, hrs, hfs⟩⟩
    have hka : k ∈ (groupAgile agile_df).map (fun m => m.1) := by
      rw [groupAgile_map_fst]
      unfold agileSlots
      rw [mem_sortedKeys]
      exact List.mem_map.mpr ⟨ra, hra, hfa⟩
    have hmem : k ∈ systemSlots system_df := by
      unfold systemSlots
      rw [mem_sortedKeys]
      exact List.mem_map.mpr ⟨rs, hrs, hfs⟩
    have hks : ((groupSystem system_df).lookup k).isSome := by
      rw [groupSystem_lookup, if_pos hmem]
      rfl
    have hk : k ∈ (mergedDf agile_df system_df).map (fun m => m.1) := by
      unfold mergedDf
      rw [mem_mergeInner_fst]
      exact ⟨hka, hks⟩
    obtain ⟨m, hm, hm1⟩ := List.mem_map.mp hk
    rw [compute_cheapness_eq]
    exact ⟨_, List.mem_map_of_mem _ hm, hm1⟩

/-- C8: every output row starts on a half-hour boundary (minute 0 or 30,
second 0) and ends exactly 30 minutes after its start. -/
theorem output_slot_invariant (agile_df : List AgileRow)
    (system_df : List SystemRow) (r : ScoredRow)
    (hr : r ∈ compute_cheapness agile_df system_df) :
    (tsMinute r.start = 0 ∨ tsMinute r.start = 30) ∧ r.start % 60 = 0 ∧
    r.endTime = r.start + 30 * 60 := by
  rw [compute_cheapness_eq] at hr
  obtain ⟨m, hm, rfl⟩ := List.mem_map.mp hr
  have hk : m.1 ∈ (mergedDf agile_df system_df).map (fun m => m.1) :=
    List.mem_map_of_mem _ hm
  unfold mergedDf at hk
  rw [mem_mergeInner_fst] at hk
  have hka := hk.1
  rw [groupAgile_map_fst] at hka
  unfold agileSlots at hka
  rw [mem_sortedKeys] at hka
  obtain ⟨ra, _, hfl⟩ := List.mem_map.mp hka
  have hp := floor_to_half_hour_props ra.start
  rw [hfl] at hp
  exact ⟨hp.1, hp.2.1, by norm_num⟩

/-- Witness for C8 at a concrete run with one overlapping slot. -/
theorem output_slot_invariant_witness :
    (tsMinute (⟨0, 1800, 10, 2, 50⟩ : ScoredRow).start = 0 ∨
     tsMinute (⟨0, 1800, 10, 2, 50⟩ : ScoredRow).start = 30) ∧
    (⟨0, 1800, 10, 2, 50⟩ : ScoredRow).start % 60 = 0 ∧
    (⟨0, 1800, 10, 2, 50⟩ : ScoredRow).endTime
      = (⟨0, 1800, 10, 2, 50⟩ : ScoredRow).start + 30 * 60 := by
  have hr : (⟨0, 1800, 10, 2, 50⟩ : ScoredRow)
      ∈ compute_cheapness [⟨0, 1800, 10⟩] [⟨0, 2⟩] := by
    norm_num [compute_cheapness, mergedDf, mergeInner, groupAgile, groupSystem,
      agileSlots, systemSlots, sortedKeys, insertKey, floor_to_half_hour,
      tsFloorHour, tsMinute, listMean, seriesMin, seriesMax, endMax,
      normalizeVal, cheapness_score, List.lookup, List.filter,
      List.filterMap_cons, List.filterMap_nil, Option.map, ScoredRow.mk.injEq]
  exact output_slot_invariant [⟨0, 1800, 10⟩] [⟨0, 2⟩] _ hr

/-- C10: the output rows of `compute_cheapness` have pairwise distinct slot
start instants and appear in strictly increasing start order. -/
theorem output_starts_sorted_distinct (agile_df : List AgileRow)
    (system_df : List SystemRow)
    (_ha : agile_df ≠ []) (_hs : system_df ≠ []) :
    ((compute_cheapness agile_df system_df).map fun r => r.start).Pairwise
      (· < ·) ∧
    ((compute_cheapness agile_df system_df).map fun r => r.start).Nodup := by
  have key : ((compute_cheapness agile_df system_df).map fun r => r.start).Pairwise
      (· < ·) := by
    rw [compute_cheapness_eq, List.map_map]
    have hsub := mergeInner_map_fst_sublist (groupAgile agile_df)
      (groupSystem system_df)
    rw [groupAgile_map_fst] at hsub
    have hpw : (agileSlots agile_df).Pairwise (· < ·) := pairwise_sortedKeys _
    exact hpw.sublist hsub
  exact ⟨key, key.imp fun h => ne_of_lt h⟩

/-- Witness for C10 at a two-slot run. -/
theorem output_starts_sorted_distinct_witness :
    ((compute_cheapness [⟨0, 1800, 10⟩, ⟨1800, 3600, 20⟩]
        [⟨0, 2⟩, ⟨1800, 3⟩]).map fun r => r.start).Pairwise (· < ·) ∧
    ((compute_cheapness [⟨0, 1800, 10⟩, ⟨1800, 3600, 20⟩]
        [⟨0, 2⟩, ⟨1800, 3⟩]).map fun r => r.start).Nodup :=
  output_starts_sorted_distinct _ _ (by simp) (by simp)

/-- C9: min-max normalisation is invariant under a positive affine
transformation `x ↦ a*x + b` (`a > 0`) of a non-degenerate input series. -/
theorem normalize_affine_invariant (xs : List ℚ) (a b : ℚ) (ha : 0 < a)
    (h : seriesMin xs < seriesMax xs) :
    normalizeSeries (xs.map fun x => a * x + b) = normalizeSeries xs := by
  cases xs with
  | nil => rfl
  | cons x r =>
    have hmn := seriesMin_affine ha x r (b := b)
    have hmx := seriesMax_affine ha x r (b := b)
    have h2 : seriesMin ((x :: r).map fun v => a * v + b) <
        seriesMax ((x :: r).map fun v => a * v + b) := by
      rw [hmn, hmx]
      have := mul_lt_mul_of_pos_left h ha
      linarith
    have hfun : ∀ v : ℚ,
        normalizeVal (seriesMin ((x :: r).map fun v => a * v + b))
                     (seriesMax ((x :: r).map fun v => a * v + b))
                     (a * v + b)
          = normalizeVal (seriesMin (x :: r)) (seriesMax (x :: r)) v := by
      intro v
      rw [hmn, hmx]
      simp only [normalizeVal, if_pos h, if_pos (by
        have := mul_lt_mul_of_pos_left h ha
        linarith : a * seriesMin (x :: r) + b < a * seriesMax (x :: r) + b)]
      have e1 : a * v + b - (a * seriesMin (x :: r) + b)
          = a * (v - seriesMin (x :: r)) := by ring
      have e2 : a * seriesMax (x :: r) + b - (a * seriesMin (x :: r) + b)
          = a * (seriesMax (x :: r) - seriesMin (x :: r)) := by ring
      rw [e1, e2, mul_div_mul_left _ _ (ne_of_gt ha)]
    unfold normalizeSeries
    rw [List.map_map]
    exact List.map_congr_left fun v _ => hfun v

/-- Witness for C9 at the series `[10,20,30]` with `a = 2`, `b = 1`. -/
theorem normalize_affine_invariant_witness :
    (0:ℚ) < 2 ∧ seriesMin [(10:ℚ), 20, 30] < seriesMax [(10:ℚ), 20, 30] ∧
    normalizeSeries ([(10:ℚ), 20, 30].map fun x => 2 * x + 1)
      = normalizeSeries [(10:ℚ), 20, 30] :=
  ⟨by norm_num, by norm_num [seriesMin, seriesMax],
   normalize_affine_invariant [10, 20, 30] 2 1 (by norm_num)
     (by norm_num [seriesMin, seriesMax])⟩

end PowerPrice
